import Mathlib

/-!
Shallow embedding of the version-resolution core of `lib-version`
(`src/lib_version/version_util.py` and `src/lib_version/builder.py`).

Modelling conventions:
* Python strings are `String` (a structure over `List Char`); most work is
  done on the underlying `List Char`.
* `re.match` with the pattern `^v?(\d+)\.(\d+)(?:\.(\d+))?(?:-([a-zA-Z0-9.-]+))?$`
  is deterministic on every input (each group's extent is forced by the
  following delimiter), so it is embedded as a direct functional parser.
  `\d` is modelled as the ASCII digits `0`-`9`.
* Functions that talk to git receive the repository's tag list (and, for the
  builder, the tagged-commit flag and the computed dev version) as explicit
  arguments; an uncaught Python exception is modelled as `none`.
* `sorted(xs, key=k, reverse=True)[0]` with Python's stable sort is the first
  element of `xs` whose key is maximal; it is embedded as `maxByKeyFirst`,
  a left fold that replaces the current best only on a strictly greater key.
-/

namespace LibVersion

/-- The decimal digit characters used when printing a natural number. -/
def digitChar : Nat → Char
  | 0 => '0'
  | 1 => '1'
  | 2 => '2'
  | 3 => '3'
  | 4 => '4'
  | 5 => '5'
  | 6 => '6'
  | 7 => '7'
  | 8 => '8'
  | _ => '9'

/-- Fuel-driven decimal printing of a natural number (most significant digit
first), accumulating onto `acc`.  Fuel `n + 1` always suffices for `n`. -/
def natDigitsAux (fuel n : Nat) (acc : List Char) : List Char :=
  match fuel with
  | 0 => acc
  | fuel + 1 =>
    if n < 10 then digitChar n :: acc
    else natDigitsAux fuel (n / 10) (digitChar (n % 10) :: acc)

/-- Decimal representation of a natural number, as Python's `str` prints it. -/
def natDigits (n : Nat) : List Char :=
  natDigitsAux (n + 1) n []

/-- One step of reading a decimal numeral left to right. -/
def natValStep (a : Nat) (c : Char) : Nat :=
  10 * a + (c.toNat - 48)

/-- Python `int` applied to a string of decimal digits. -/
def natVal (cs : List Char) : Nat :=
  cs.foldl natValStep 0

/-- Split off the maximal leading run of decimal digits (the extent a `\d+`
group takes in the version regex). -/
def takeDigits : List Char → List Char × List Char
  | [] => ([], [])
  | c :: cs =>
    if c.isDigit then
      let (ds, rest) := takeDigits cs
      (c :: ds, rest)
    else ([], c :: cs)

/-- The character class `[a-zA-Z0-9.-]` of the prerelease group. -/
def preChar (c : Char) : Bool :=
  c.isAlpha || c.isDigit || c == '.' || c == '-'

/-- The optional leading `v` of the version regex: a leading `v` must be
consumed (the next group `\d+` cannot match it). -/
def stripLeadV (cs : List Char) : List Char :=
  match cs with
  | c :: rest => if c = 'v' then rest else c :: rest
  | [] => []

/-- A parsed version, the tuple `(major, minor, patch, prerelease)` returned
by `VersionUtil.parse_version`; `patch` and `prerelease` may be absent. -/
structure Version where
  major : Nat
  minor : Nat
  patch : Option Nat
  prerelease : Option String
deriving DecidableEq

/-- The enum `VersionPart` of `version_util.py`. -/
inductive VersionPart where
  | MAJOR
  | MINOR
  | PATCH
deriving DecidableEq

/-- The tail of the version regex after the minor (and optional patch)
groups: end of input, or `-` followed by a non-empty `[a-zA-Z0-9.-]+` run
reaching the end of the input. -/
def parseTail (ma mi : Nat) (pa : Option Nat) (rest : List Char) : Option Version :=
  match rest with
  | [] => some ⟨ma, mi, pa, none⟩
  | c :: pr =>
    if c = '-' then
      if pr.isEmpty then none
      else if pr.all preChar then some ⟨ma, mi, pa, some (String.mk pr)⟩
      else none
    else none

/-- After the mandatory `MAJOR.MINOR`: the optional `(?:\.(\d+))?` patch
group, then the prerelease tail. -/
def parseAfterMinor (d1 d2 : List Char) (r3 : List Char) : Option Version :=
  match r3 with
  | [] => some ⟨natVal d1, natVal d2, none, none⟩
  | c :: r4 =>
    if c = '.' then
      match takeDigits r4 with
      | ([], _) => none
      | (d3, r5) => parseTail (natVal d1) (natVal d2) (some (natVal d3)) r5
    else parseTail (natVal d1) (natVal d2) none (c :: r4)

/-- The version regex after the optional leading `v`:
`(\d+)\.(\d+)(?:\.(\d+))?(?:-([a-zA-Z0-9.-]+))?$`. -/
def parseBody (cs : List Char) : Option Version :=
  match takeDigits cs with
  | ([], _) => none
  | (d1, r1) =>
    match r1 with
    | [] => none
    | c :: r2 =>
      if c = '.' then
        match takeDigits r2 with
        | ([], _) => none
        | (d2, r3) => parseAfterMinor d1 d2 r3
      else none

/-- `VersionUtil.parse_version`: match the version pattern, or `none` for the
empty string and for any non-matching string. -/
def parse_version (s : String) : Option Version :=
  parseBody (stripLeadV s.data)

/-- The `.PATCH` fragment of `format_version` (empty when patch is absent). -/
def patchChars : Option Nat → List Char
  | none => []
  | some p => '.' :: natDigits p

/-- The `-PRERELEASE` fragment of `format_version`; a falsy (empty)
prerelease is not appended, as in the Python `if prerelease:` test. -/
def preChars : Option String → List Char
  | none => []
  | some pr => if pr.data.isEmpty then [] else '-' :: pr.data

/-- The string `MAJOR.MINOR[.PATCH][-PRERELEASE]` built by
`VersionUtil.format_version` before the optional `v`. -/
def formatCore (ma mi : Nat) (pa : Option Nat) (pre : Option String) : List Char :=
  natDigits ma ++ ('.' :: (natDigits mi ++ (patchChars pa ++ preChars pre)))

/-- `VersionUtil.format_version`. -/
def format_version (ma mi : Nat) (pa : Option Nat) (pre : Option String)
    (include_v : Bool) : String :=
  if include_v then String.mk ('v' :: formatCore ma mi pa pre)
  else String.mk (formatCore ma mi pa pre)

/-- `VersionUtil.bump_version`: parse, and on failure return the input
unchanged; on success rebuild with the requested part incremented
(an absent patch counts as `0` for a patch bump). -/
def bump_version (version : String) (p : VersionPart) : String :=
  match parse_version version with
  | none => version
  | some v =>
    match p with
    | VersionPart.MAJOR => format_version (v.major + 1) 0 (some 0) none false
    | VersionPart.MINOR => format_version v.major (v.minor + 1) (some 0) none false
    | VersionPart.PATCH =>
        format_version v.major v.minor (some (v.patch.getD 0 + 1)) none false

/-- `VersionUtil.get_next_version_for_tag`: parse the tag, treat an absent
patch as `0`, and format `(major, minor, patch + 1)`. -/
def get_next_version_for_tag (tag : String) : Option String :=
  match parse_version tag with
  | none => none
  | some v => some (format_version v.major v.minor (some (v.patch.getD 0 + 1)) none false)

/-- The sort key used by `get_latest_tag`:
`(major, minor, -1 if patch is None else patch)`. -/
def tagKey (v : Version) : Nat × Nat × Int :=
  (v.major, v.minor, match v.patch with
    | none => (-1 : Int)
    | some p => (p : Int))

/-- Strict lexicographic order on sort keys (Python tuple comparison). -/
def keyLt (a b : Nat × Nat × Int) : Prop :=
  a.1 < b.1 ∨ (a.1 = b.1 ∧ (a.2.1 < b.2.1 ∨ (a.2.1 = b.2.1 ∧ a.2.2 < b.2.2)))

instance (a b : Nat × Nat × Int) : Decidable (keyLt a b) := by
  unfold keyLt
  infer_instance

/-- One step of descending-stable selection: replace the current best only on
a strictly greater key, so ties keep the earlier element. -/
def betterTag (best cand : String × Version) : String × Version :=
  if keyLt (tagKey best.2) (tagKey cand.2) then cand else best

/-- `sorted(xs, key=..., reverse=True)[0]` on a possibly empty list: the first
element with a maximal key (Python's sort is stable, so `[0]` of the
descending sort is the first maximum of the original order). -/
def maxByKeyFirst : List (String × Version) → Option (String × Version)
  | [] => none
  | x :: xs => some (xs.foldl betterTag x)

/-- Python `tag.replace("-pre", "")`: remove the leftmost occurrence and
continue after it.  The pattern `-pre` has no self-overlap, so this removes
exactly the non-overlapping occurrences, left to right. -/
def replacePre : List Char → List Char
  | '-' :: 'p' :: 'r' :: 'e' :: rest => replacePre rest
  | c :: rest => c :: replacePre rest
  | [] => []

/-- The `parsed_tags` list of `get_latest_tag`: drop empty strings (the
`[t for t in tags if t]` filter), keep each remaining tag paired with its
parsed version, dropping unparsable tags. -/
def parsedTags (tags : List String) : List (String × Version) :=
  (tags.filter (fun t => t != "")).filterMap
    (fun t => (parse_version t).map (fun v => (t, v)))

/-- `VersionUtil.get_latest_tag`, over an explicit tag list: prefer the first
maximal tag (by `tagKey`) among tags with no prerelease; otherwise take the
first maximal tag among all parsable tags and strip the literal substring
`-pre` from it; `none` when nothing parses. -/
def get_latest_tag (tags : List String) : Option String :=
  match maxByKeyFirst ((parsedTags tags).filter (fun tv => decide (tv.2.prerelease = none))) with
  | some tv => some tv.1
  | none =>
    match maxByKeyFirst (parsedTags tags) with
    | some tv => some (String.mk (replacePre tv.1.data))
    | none => none

/-- `latest_tag[1:] if latest_tag.startswith('v') else latest_tag`. -/
def stripV (s : String) : String :=
  match s.data with
  | 'v' :: rest => String.mk rest
  | _ => s

/-- The `_version`-module fallback of `get_version`: the persisted version
when the module exists, else the hard-coded default. -/
def fallbackVersion : Option String → String
  | some f => f
  | none => "0.0.1-dev0"

/-- `VersionUtil.get_version`, over the tag list and the persisted fallback:
a truthy resolved tag is returned with a leading `v` stripped; otherwise the
fallback path runs. -/
def get_version (tags : List String) (fallback : Option String) : String :=
  match get_latest_tag tags with
  | some t => if t = "" then fallbackVersion fallback else stripV t
  | none => fallbackVersion fallback

/-- `VersionUtil.create_tag`'s normalization
`f"v{version}" if not version.startswith('v') else version`. -/
def createTagName (version : String) : String :=
  match version.data with
  | 'v' :: _ => version
  | _ => String.mk ('v' :: version.data)

/-- The Python truthiness test `if self.version_override:`: an absent or
empty override does not take the override branch. -/
def overridePresent : Option String → Bool
  | none => false
  | some s => s != ""

/-- The outcome of `PackageBuilder.determine_version`: the returned
`(version, is_new_tag)` pair plus the list of tag names passed to
`create_tag` during the call. -/
structure BuildResult where
  version : String
  tagWasCreated : Bool
  createdTags : List String
deriving DecidableEq

/-- `PackageBuilder.determine_version`, over explicit inputs: the override
field, the `is_on_tagged_commit` answer, the repository tag list, the
`use_dev_version` flag, and the value `get_dev_version` would produce.
`none` models an uncaught exception (`tag.startswith` on `None` when the
tagged-commit branch runs but no tag resolves). -/
def determine_version (override : Option String) (onTagged : Bool)
    (tags : List String) (useDev : Bool) (devVersion : String) :
    Option BuildResult :=
  if overridePresent override then some ⟨override.getD "", false, []⟩
  else if onTagged && !useDev then
    match get_latest_tag tags with
    | none => none
    | some t =>
      match parse_version t with
      | some _ =>
        match get_next_version_for_tag t with
        | some ver => some ⟨ver, true, [createTagName ver]⟩
        | none => none
      | none => some ⟨stripV t, false, []⟩
  else some ⟨devVersion, false, []⟩

/-- Modelled from the spec: claim C2's rule 1, used only for comparison with
`get_latest_tag` — restrict to "release tags" (non-absent patch and no
prerelease) and take the maximum by `(major, minor, patch)`. -/
def claimReleaseLatest (tags : List String) : Option String :=
  let rel := (parsedTags tags).filter
    (fun tv => decide (tv.2.patch ≠ none ∧ tv.2.prerelease = none))
  (maxByKeyFirst rel).map (fun tv => tv.1)

/-! ### Decimal printing and reparsing -/

theorem digitChar_isDigit (d : Nat) (h : d < 10) : (digitChar d).isDigit = true := by
  interval_cases d <;> decide

theorem digitChar_val (d : Nat) (h : d < 10) : (digitChar d).toNat - 48 = d := by
  interval_cases d <;> decide

theorem natDigitsAux_spec (fuel : Nat) :
    ∀ n acc, 1 ≤ fuel → n < 10 ^ fuel →
      ∃ ds : List Char, natDigitsAux fuel n acc = ds ++ acc ∧ ds ≠ [] ∧
        (∀ c ∈ ds, c.isDigit = true) ∧
        ∀ a : Nat, List.foldl natValStep a ds = a * 10 ^ ds.length + n := by
  induction fuel with
  | zero => intro n acc h; omega
  | succ fuel ih =>
    intro n acc _ hlt
    by_cases hn : n < 10
    · refine ⟨[digitChar n], by simp [natDigitsAux, hn], by simp, ?_, ?_⟩
      · intro c hc
        simp only [List.mem_singleton] at hc
        subst hc
        exact digitChar_isDigit n hn
      · intro a
        simp [natValStep, digitChar_val n hn]
        omega
    · have hfuel : 1 ≤ fuel := by
        rcases Nat.eq_zero_or_pos fuel with h0 | h1
        · subst h0; norm_num at hlt; omega
        · exact h1
      have hdiv : n / 10 < 10 ^ fuel := by
        have hmul : n < 10 ^ fuel * 10 := by
          rw [← pow_succ]; exact hlt
        omega
      obtain ⟨ds, hEq, hne, hdig, hval⟩ := ih (n / 10) (digitChar (n % 10) :: acc) hfuel hdiv
      have hmod : n % 10 < 10 := Nat.mod_lt n (by omega)
      refine ⟨ds ++ [digitChar (n % 10)], ?_, by simp, ?_, ?_⟩
      · simp [natDigitsAux, hn, hEq]
      · intro c hc
        rcases List.mem_append.mp hc with h | h
        · exact hdig c h
        · simp only [List.mem_singleton] at h
          subst h
          exact digitChar_isDigit _ hmod
      · intro a
        rw [List.foldl_append, hval a]
        have h10 : 10 * (n / 10) + n % 10 = n := Nat.div_add_mod n 10
        simp only [List.foldl_cons, List.foldl_nil, natValStep, digitChar_val _ hmod,
          List.length_append, List.length_singleton]
        calc 10 * (a * 10 ^ ds.length + n / 10) + n % 10
            = (a * 10 ^ ds.length) * 10 + (10 * (n / 10) + n % 10) := by ring
          _ = a * (10 ^ ds.length * 10) + n := by rw [h10]; ring
          _ = a * 10 ^ (ds.length + 1) + n := by rw [pow_succ]

theorem natDigits_props (n : Nat) :
    natDigits n ≠ [] ∧ (∀ c ∈ natDigits n, c.isDigit = true) ∧
      ∀ a : Nat, List.foldl natValStep a (natDigits n) = a * 10 ^ (natDigits n).length + n := by
  have hfuel : n < 10 ^ (n + 1) := by
    calc n < 2 ^ n := Nat.lt_two_pow n
      _ ≤ 10 ^ n := Nat.pow_le_pow_left (by omega) n
      _ ≤ 10 ^ (n + 1) := Nat.pow_le_pow_right (by omega) (by omega)
  obtain ⟨ds, hEq, hne, hdig, hval⟩ := natDigitsAux_spec (n + 1) n [] (by omega) hfuel
  have hds : natDigits n = ds := by
    simp only [natDigits, hEq, List.append_nil]
  rw [hds]
  exact ⟨hne, hdig, hval⟩

theorem natVal_natDigits (n : Nat) : natVal (natDigits n) = n := by
  have h := (natDigits_props n).2.2 0
  simpa [natVal] using h

theorem takeDigits_append (ds rest : List Char) (h1 : ∀ c ∈ ds, c.isDigit = true)
    (h2 : ∀ c cs, rest = c :: cs → c.isDigit = false) :
    takeDigits (ds ++ rest) = (ds, rest) := by
  induction ds with
  | nil =>
    simp only [List.nil_append]
    cases rest with
    | nil => rfl
    | cons c cs => simp [takeDigits, h2 c cs rfl]
  | cons c ds ih =>
    have hc := h1 c (by simp)
    have ihh := ih (fun x hx => h1 x (by simp [hx]))
    simp [takeDigits, hc, ihh]

theorem takeDigits_decomp (cs : List Char) :
    (takeDigits cs).1 ++ (takeDigits cs).2 = cs ∧ ∀ c ∈ (takeDigits cs).1, c.isDigit = true := by
  induction cs with
  | nil => simp [takeDigits]
  | cons c cs ih =>
    by_cases hc : c.isDigit
    · have hstep : takeDigits (c :: cs) = (c :: (takeDigits cs).1, (takeDigits cs).2) := by
        cases h : takeDigits cs with
        | mk ds rest => simp [takeDigits, hc, h]
      obtain ⟨h1, h2⟩ := ih
      rw [hstep]
      constructor
      · simpa using h1
      · intro x hx
        simp only [List.mem_cons] at hx
        rcases hx with rfl | hx
        · exact hc
        · exact h2 x hx
    · simp [takeDigits, hc]

/-! ### The parse/format round trip -/

theorem natDigits_cons (n : Nat) : ∃ c t, natDigits n = c :: t ∧ c.isDigit = true := by
  obtain ⟨hne, hdig, -⟩ := natDigits_props n
  cases h : natDigits n with
  | nil => exact absurd h hne
  | cons c t => exact ⟨c, t, rfl, hdig c (by rw [h]; simp)⟩

/-- Validity of a prerelease component: non-empty and inside `[a-zA-Z0-9.-]`. -/
def ValidPre (pre : Option String) : Prop :=
  ∀ p, pre = some p → p.data ≠ [] ∧ p.data.all preChar = true

instance (pre : Option String) : Decidable (ValidPre pre) := by
  unfold ValidPre
  cases pre with
  | none => exact isTrue (by intro p h; cases h)
  | some q =>
    by_cases h : q.data ≠ [] ∧ q.data.all preChar = true
    · exact isTrue (by intro p hp; cases hp; exact h)
    · exact isFalse (by intro hall; exact h (hall q rfl))

theorem parseTail_pre (ma mi : Nat) (pa : Option Nat) (p : String) (hne : p.data ≠ [])
    (hall : p.data.all preChar = true) :
    parseTail ma mi pa ('-' :: p.data) = some ⟨ma, mi, pa, some p⟩ := by
  cases p with
  | mk pd =>
    have hemp : pd.isEmpty = false := by
      cases pd with
      | nil => simp at hne
      | cons a b => rfl
    simp [parseTail, hemp, hall]

theorem preChars_parseTail (ma mi : Nat) (pa : Option Nat) (pre : Option String)
    (hpre : ValidPre pre) :
    parseTail ma mi pa (preChars pre) = some ⟨ma, mi, pa, pre⟩ := by
  cases pre with
  | none => rfl
  | some p =>
    obtain ⟨hne, hall⟩ := hpre p rfl
    have hemp : p.data.isEmpty = false := by
      cases hd : p.data with
      | nil => exact absurd hd hne
      | cons a b => rfl
    rw [show preChars (some p) = '-' :: p.data from by simp [preChars, hemp]]
    exact parseTail_pre ma mi pa p hne hall

theorem preChars_head_not_digit (pre : Option String) :
    ∀ c cs, preChars pre = c :: cs → c.isDigit = false := by
  intro c cs h
  cases pre with
  | none => cases h
  | some p =>
    by_cases hemp : p.data.isEmpty
    · rw [show preChars (some p) = [] from by simp [preChars, hemp]] at h
      cases h
    · rw [show preChars (some p) = '-' :: p.data from by
        simp [preChars, Bool.of_not_eq_true hemp]] at h
      injection h with hc _
      rw [← hc]
      decide

theorem tail_head_not_digit (pa : Option Nat) (pre : Option String) :
    ∀ c cs, patchChars pa ++ preChars pre = c :: cs → c.isDigit = false := by
  intro c cs h
  cases pa with
  | none =>
    simp only [patchChars, List.nil_append] at h
    exact preChars_head_not_digit pre c cs h
  | some p =>
    simp only [patchChars, List.cons_append] at h
    injection h with hc _
    rw [← hc]
    decide

theorem parseAfterMinor_tail (d1 d2 : List Char) (pa : Option Nat) (pre : Option String)
    (hpre : ValidPre pre) :
    parseAfterMinor d1 d2 (patchChars pa ++ preChars pre) =
      some ⟨natVal d1, natVal d2, pa, pre⟩ := by
  cases pa with
  | none =>
    simp only [patchChars, List.nil_append]
    cases hp : preChars pre with
    | nil =>
      cases pre with
      | none => rfl
      | some p =>
        obtain ⟨hne, -⟩ := hpre p rfl
        have hemp : p.data.isEmpty = false := by
          cases hd : p.data with
          | nil => exact absurd hd hne
          | cons a b => rfl
        simp [preChars, hemp] at hp
    | cons c cs =>
      have hc : c = '-' := by
        cases pre with
        | none => cases hp
        | some p =>
          by_cases hemp : p.data.isEmpty
          · simp [preChars, hemp] at hp
          · simp only [preChars, Bool.of_not_eq_true hemp, Bool.false_eq_true,
              if_false] at hp
            exact (List.cons.injEq _ _ _ _ ▸ hp).1.symm
      subst hc
      rw [show parseAfterMinor d1 d2 ('-' :: cs) =
          parseTail (natVal d1) (natVal d2) none ('-' :: cs) from by
        simp [parseAfterMinor]]
      rw [← hp]
      exact preChars_parseTail _ _ none pre hpre
  | some p =>
    obtain ⟨c3, t3, h3, hc3⟩ := natDigits_cons p
    have hTD : takeDigits (natDigits p ++ preChars pre) = (natDigits p, preChars pre) :=
      takeDigits_append _ _ (natDigits_props p).2.1 (preChars_head_not_digit pre)
    simp only [patchChars, List.cons_append]
    rw [show parseAfterMinor d1 d2 ('.' :: (natDigits p ++ preChars pre)) =
        (match takeDigits (natDigits p ++ preChars pre) with
          | ([], _) => none
          | (d3, r5) => parseTail (natVal d1) (natVal d2) (some (natVal d3)) r5) from by
      simp [parseAfterMinor]]
    rw [hTD, h3]
    show parseTail (natVal d1) (natVal d2) (some (natVal (c3 :: t3))) (preChars pre) = _
    rw [← h3, natVal_natDigits]
    exact preChars_parseTail _ _ (some p) pre hpre

theorem parseBody_formatCore (ma mi : Nat) (pa : Option Nat) (pre : Option String)
    (hpre : ValidPre pre) :
    parseBody (formatCore ma mi pa pre) = some ⟨ma, mi, pa, pre⟩ := by
  obtain ⟨c1, t1, h1, hc1⟩ := natDigits_cons ma
  obtain ⟨c2, t2, h2, hc2⟩ := natDigits_cons mi
  have hTD1 : takeDigits (formatCore ma mi pa pre) =
      (natDigits ma, '.' :: (natDigits mi ++ (patchChars pa ++ preChars pre))) :=
    takeDigits_append _ _ (natDigits_props ma).2.1
      (by intro c cs h; injection h with hc _; rw [← hc]; decide)
  have hTD2 : takeDigits (natDigits mi ++ (patchChars pa ++ preChars pre)) =
      (natDigits mi, patchChars pa ++ preChars pre) :=
    takeDigits_append _ _ (natDigits_props mi).2.1 (tail_head_not_digit pa pre)
  unfold parseBody
  rw [hTD1, h1]
  show (match takeDigits (natDigits mi ++ (patchChars pa ++ preChars pre)) with
    | ([], _) => none
    | (d2, r3) => parseAfterMinor (c1 :: t1) d2 r3) = some ⟨ma, mi, pa, pre⟩
  rw [hTD2, h2]
  show parseAfterMinor (c1 :: t1) (c2 :: t2) (patchChars pa ++ preChars pre) = _
  rw [← h1, ← h2, parseAfterMinor_tail _ _ pa pre hpre, natVal_natDigits, natVal_natDigits]

theorem parse_format_roundtrip (ma mi : Nat) (pa : Option Nat) (pre : Option String)
    (b : Bool) (hpre : ValidPre pre) :
    parse_version (format_version ma mi pa pre b) = some ⟨ma, mi, pa, pre⟩ := by
  have hbody := parseBody_formatCore ma mi pa pre hpre
  obtain ⟨c1, t1, h1, hc1⟩ := natDigits_cons ma
  cases b with
  | true =>
    show parseBody (stripLeadV ('v' :: formatCore ma mi pa pre)) = _
    rw [show stripLeadV ('v' :: formatCore ma mi pa pre) = formatCore ma mi pa pre from by
      simp [stripLeadV]]
    exact hbody
  | false =>
    show parseBody (stripLeadV (formatCore ma mi pa pre)) = _
    have hshape : formatCore ma mi pa pre =
        c1 :: (t1 ++ ('.' :: (natDigits mi ++ (patchChars pa ++ preChars pre)))) := by
      rw [formatCore, h1, List.cons_append]
    have hv : c1 ≠ 'v' := by
      intro hcv
      rw [hcv] at hc1
      exact absurd hc1 (by decide)
    rw [hshape]
    rw [show stripLeadV (c1 :: (t1 ++ ('.' :: (natDigits mi ++ (patchChars pa ++ preChars pre))))) =
        c1 :: (t1 ++ ('.' :: (natDigits mi ++ (patchChars pa ++ preChars pre)))) from by
      simp [stripLeadV, hv]]
    rw [← hshape]
    exact hbody

/-! ### Selection of the maximal tag -/

theorem keyLt_irrefl (a : Nat × Nat × Int) : ¬ keyLt a a := by
  obtain ⟨a1, a2, a3⟩ := a
  simp only [keyLt]
  omega

theorem keyLt_trans {a b c : Nat × Nat × Int} (h1 : keyLt a b) (h2 : keyLt b c) :
    keyLt a c := by
  obtain ⟨a1, a2, a3⟩ := a
  obtain ⟨b1, b2, b3⟩ := b
  obtain ⟨c1, c2, c3⟩ := c
  simp only [keyLt] at h1 h2 ⊢
  omega

theorem keyLt_resolve {a b c : Nat × Nat × Int} (h1 : keyLt a c) (h2 : ¬ keyLt b c)
    (h3 : ¬ keyLt a b) : False := by
  obtain ⟨a1, a2, a3⟩ := a
  obtain ⟨b1, b2, b3⟩ := b
  obtain ⟨c1, c2, c3⟩ := c
  simp only [keyLt] at h1 h2 h3
  omega

theorem foldl_betterTag_mem (xs : List (String × Version)) (x : String × Version) :
    xs.foldl betterTag x ∈ x :: xs := by
  induction xs generalizing x with
  | nil => simp
  | cons z zs ih =>
    simp only [List.foldl_cons]
    by_cases hk : keyLt (tagKey x.2) (tagKey z.2)
    · rw [show betterTag x z = z from by simp [betterTag, hk]]
      have h := ih z
      simp only [List.mem_cons] at h ⊢
      tauto
    · rw [show betterTag x z = x from by simp [betterTag, hk]]
      have h := ih x
      simp only [List.mem_cons] at h ⊢
      tauto

theorem foldl_betterTag_max (xs : List (String × Version)) :
    ∀ x u, u ∈ x :: xs →
      ¬ keyLt (tagKey (xs.foldl betterTag x).2) (tagKey u.2) := by
  induction xs with
  | nil =>
    intro x u hu
    simp only [List.mem_cons, List.not_mem_nil, or_false] at hu
    subst hu
    exact keyLt_irrefl _
  | cons z zs ih =>
    intro x u hu
    simp only [List.foldl_cons]
    by_cases hk : keyLt (tagKey x.2) (tagKey z.2)
    · rw [show betterTag x z = z from by simp [betterTag, hk]]
      rcases List.mem_cons.mp hu with rfl | hu'
      · intro hc
        exact ih z z (by simp) (keyLt_trans hc hk)
      · exact ih z u hu'
    · rw [show betterTag x z = x from by simp [betterTag, hk]]
      rcases List.mem_cons.mp hu with rfl | hu'
      · exact ih u u (by simp)
      · rcases List.mem_cons.mp hu' with rfl | hu''
        · intro hc
          exact keyLt_resolve hc hk (ih x x (by simp))
        · exact ih x u (by simp [hu''])

theorem maxByKeyFirst_mem {l : List (String × Version)} {tv : String × Version}
    (h : maxByKeyFirst l = some tv) : tv ∈ l := by
  cases l with
  | nil => cases h
  | cons x xs =>
    simp only [maxByKeyFirst, Option.some.injEq] at h
    subst h
    exact foldl_betterTag_mem xs x

theorem maxByKeyFirst_max {l : List (String × Version)} {tv : String × Version}
    (h : maxByKeyFirst l = some tv) :
    ∀ u ∈ l, ¬ keyLt (tagKey tv.2) (tagKey u.2) := by
  cases l with
  | nil => cases h
  | cons x xs =>
    simp only [maxByKeyFirst, Option.some.injEq] at h
    subst h
    exact fun u hu => foldl_betterTag_max xs x u hu

theorem maxByKeyFirst_of_ne_nil {l : List (String × Version)} (h : l ≠ []) :
    ∃ tv, maxByKeyFirst l = some tv := by
  cases l with
  | nil => exact absurd rfl h
  | cons x xs => exact ⟨_, rfl⟩

/-! ### Membership in the parsed-tag list -/

theorem parse_version_empty : parse_version "" = none := rfl

theorem mem_parsedTags {tags : List String} {tv : String × Version} :
    tv ∈ parsedTags tags ↔ tv.1 ∈ tags ∧ parse_version tv.1 = some tv.2 := by
  constructor
  · intro h
    obtain ⟨t, ht, hf⟩ := List.mem_filterMap.mp h
    cases hp : parse_version t with
    | none => rw [hp] at hf; cases hf
    | some v =>
      rw [hp] at hf
      simp only [Option.map_some', Option.some.injEq] at hf
      subst hf
      exact ⟨(List.mem_filter.mp ht).1, hp⟩
  · intro ⟨ht, hp⟩
    apply List.mem_filterMap.mpr
    refine ⟨tv.1, List.mem_filter.mpr ⟨ht, ?_⟩, ?_⟩
    · have hne : tv.1 ≠ "" := by
        intro h0
        rw [h0, parse_version_empty] at hp
        cases hp
      simpa using hne
    · rw [hp]
      rfl

/-! ### Digits survive tag post-processing -/

theorem countP_replacePre (cs : List Char) :
    (replacePre cs).countP (fun x => x.isDigit) = cs.countP (fun x => x.isDigit) := by
  induction cs using replacePre.induct with
  | case1 rest ih =>
    rw [show replacePre ('-' :: 'p' :: 'r' :: 'e' :: rest) = replacePre rest from rfl, ih]
    simp [List.countP_cons]
  | case2 c rest hne ih =>
    rw [replacePre.eq_2 c rest hne]
    simp only [List.countP_cons, ih]
  | case3 => rfl

theorem parseBody_some_digit {cs : List Char} {v : Version} (h : parseBody cs = some v) :
    ∃ c ∈ cs, c.isDigit = true := by
  obtain ⟨hdecomp, hdig⟩ := takeDigits_decomp cs
  cases hTD : takeDigits cs with
  | mk d1 r1 =>
    rw [hTD] at hdecomp hdig
    simp only at hdecomp hdig
    cases d1 with
    | nil =>
      unfold parseBody at h
      rw [hTD] at h
      simp at h
    | cons c t =>
      refine ⟨c, ?_, hdig c (by simp)⟩
      rw [← hdecomp]
      simp

theorem parse_version_some_digit {s : String} {v : Version} (h : parse_version s = some v) :
    ∃ c ∈ s.data, c.isDigit = true := by
  unfold parse_version at h
  obtain ⟨c, hc, hd⟩ := parseBody_some_digit h
  refine ⟨c, ?_, hd⟩
  cases hsd : s.data with
  | nil =>
    rw [hsd] at hc
    simp [stripLeadV] at hc
  | cons x rest =>
    rw [hsd] at hc
    by_cases hx : x = 'v'
    · rw [show stripLeadV (x :: rest) = rest from by simp [stripLeadV, hx]] at hc
      exact List.mem_cons_of_mem _ hc
    · rw [show stripLeadV (x :: rest) = x :: rest from by simp [stripLeadV, hx]] at hc
      exact hc

theorem string_ne_empty_of_digit {t : String} (h : ∃ c ∈ t.data, c.isDigit = true) :
    t ≠ "" := by
  obtain ⟨c, hc, -⟩ := h
  intro h0
  subst h0
  simp at hc

theorem stripV_ne_empty {t : String} (h : ∃ c ∈ t.data, c.isDigit = true) :
    stripV t ≠ "" := by
  obtain ⟨c, hc, hd⟩ := h
  cases hsd : t.data with
  | nil =>
    rw [hsd] at hc
    simp at hc
  | cons x rest =>
    rw [hsd] at hc
    by_cases hx : x = 'v'
    · subst hx
      rw [show stripV t = String.mk rest from by
        unfold stripV
        rw [hsd]
        split
        · next heq =>
            injection heq with _ h2
            rw [h2]
        · next hne => exact absurd rfl (hne rest)]
      have hcr : c ∈ rest := by
        rcases List.mem_cons.mp hc with rfl | h'
        · exact absurd hd (by decide)
        · exact h'
      intro h0
      have hnil : rest = [] := by simpa using congrArg String.data h0
      rw [hnil] at hcr
      simp at hcr
    · rw [show stripV t = t from by
        unfold stripV
        rw [hsd]
        split
        · next heq =>
            injection heq with h1 _
            exact absurd h1 hx
        · rfl]
      intro h0
      rw [h0] at hsd
      simp at hsd

theorem get_latest_tag_digit {tags : List String} {t : String}
    (h : get_latest_tag tags = some t) : ∃ c ∈ t.data, c.isDigit = true := by
  unfold get_latest_tag at h
  cases h1 : maxByKeyFirst ((parsedTags tags).filter fun tv => decide (tv.2.prerelease = none)) with
  | some tv =>
    rw [h1] at h
    simp only [Option.some.injEq] at h
    subst h
    have hmem := (List.mem_filter.mp (maxByKeyFirst_mem h1)).1
    exact parse_version_some_digit (mem_parsedTags.mp hmem).2
  | none =>
    rw [h1] at h
    cases h2 : maxByKeyFirst (parsedTags tags) with
    | none =>
      rw [h2] at h
      cases h
    | some tv =>
      rw [h2] at h
      simp only [Option.some.injEq] at h
      subst h
      have hp := (mem_parsedTags.mp (maxByKeyFirst_mem h2)).2
      obtain ⟨c, hc, hd⟩ := parse_version_some_digit hp
      have hpos : 0 < (tv.1.data).countP (fun x => x.isDigit) :=
        List.countP_pos_iff.mpr ⟨c, hc, hd⟩
      have hpos2 : 0 < (replacePre tv.1.data).countP (fun x => x.isDigit) := by
        rw [countP_replacePre]
        exact hpos
      obtain ⟨c', hc', hd'⟩ := List.countP_pos_iff.mp hpos2
      exact ⟨c', hc', hd'⟩

theorem get_latest_tag_ne_empty {tags : List String} {t : String}
    (h : get_latest_tag tags = some t) : t ≠ "" :=
  string_ne_empty_of_digit (get_latest_tag_digit h)

/-! ### Claims -/

/-- C1 (code_bug evidence): with no override, `forceDev` false, on a tagged
commit whose latest resolved tag is `v1.2.3` (explicit patch), the code does
not return `("1.2.3", false)` as the claim and the function's own docstring
state: it bumps to `1.2.4`, creates tag `v1.2.4`, and reports a new tag.  The
`v1.2` (no-patch) half of the claim behaves as stated. -/
theorem c1_determine_version_rebumps_explicit_patch_tag :
    determine_version none true ["v1.2.3"] false "dev" =
      some ⟨"1.2.4", true, ["v1.2.4"]⟩ ∧
    determine_version none true ["v1.2"] false "dev" =
      some ⟨"1.2.1", true, ["v1.2.1"]⟩ := by
  decide

/-- C2 (counterexample): on the tag set `{v1.0.0, v1.1}` the claim's rule 1
(restrict to tags with non-absent patch and no prerelease) would select
`v1.0.0`, but `get_latest_tag` returns `v1.1`, a tag with an absent patch:
the first bucket of the code is not restricted to release tags. -/
theorem c2_counterexample_release_restriction_fails :
    claimReleaseLatest ["v1.0.0", "v1.1"] = some "v1.0.0" ∧
    get_latest_tag ["v1.0.0", "v1.1"] = some "v1.1" ∧
    get_latest_tag ["v1.0.0", "v1.1"] ≠ claimReleaseLatest ["v1.0.0", "v1.1"] := by
  decide

/-- C2 (amended): latest-tag resolution first restricts to parseable tags
with no prerelease (patch may be absent, ordered as `-1`) and returns a tag
of that set maximal by `(major, minor, patch-or-(-1))`; only when every
parseable tag has a prerelease does it return a maximal tag among all
parseable tags under the same ordering, with the literal substring `-pre`
removed from the winning tag. -/
theorem c2_latest_tag_selection (tags : List String) :
    (∀ t0 v0, t0 ∈ tags → parse_version t0 = some v0 → v0.prerelease = none →
      ∃ w vw, get_latest_tag tags = some w ∧ w ∈ tags ∧ parse_version w = some vw ∧
        vw.prerelease = none ∧
        ∀ u vu, u ∈ tags → parse_version u = some vu → vu.prerelease = none →
          ¬ keyLt (tagKey vw) (tagKey vu)) ∧
    ((∀ t0 v0, t0 ∈ tags → parse_version t0 = some v0 → v0.prerelease ≠ none) →
      ∀ t0 v0, t0 ∈ tags → parse_version t0 = some v0 →
        ∃ w vw, get_latest_tag tags = some (String.mk (replacePre w.data)) ∧
          w ∈ tags ∧ parse_version w = some vw ∧
          ∀ u vu, u ∈ tags → parse_version u = some vu →
            ¬ keyLt (tagKey vw) (tagKey vu)) := by
  constructor
  · intro t0 v0 ht hp hpre
    have hmem : (t0, v0) ∈ (parsedTags tags).filter
        (fun tv => decide (tv.2.prerelease = none)) :=
      List.mem_filter.mpr ⟨(@mem_parsedTags tags (t0, v0)).mpr ⟨ht, hp⟩, by simp [hpre]⟩
    obtain ⟨tv, htv⟩ := maxByKeyFirst_of_ne_nil (List.ne_nil_of_mem hmem)
    have hglt : get_latest_tag tags = some tv.1 := by
      unfold get_latest_tag
      rw [htv]
    have hmemtv := List.mem_filter.mp (maxByKeyFirst_mem htv)
    have hparse := mem_parsedTags.mp hmemtv.1
    refine ⟨tv.1, tv.2, hglt, hparse.1, hparse.2, by simpa using hmemtv.2, ?_⟩
    intro u vu hu hpu hpreu
    exact maxByKeyFirst_max htv (u, vu)
      (List.mem_filter.mpr ⟨(@mem_parsedTags tags (u, vu)).mpr ⟨hu, hpu⟩, by simp [hpreu]⟩)
  · intro hall t0 v0 ht hp
    have hnil : (parsedTags tags).filter (fun tv => decide (tv.2.prerelease = none)) = [] := by
      rw [List.filter_eq_nil_iff]
      intro tv htv
      have h' := mem_parsedTags.mp htv
      simpa using hall tv.1 tv.2 h'.1 h'.2
    obtain ⟨tv, htv⟩ :=
      maxByKeyFirst_of_ne_nil (List.ne_nil_of_mem ((@mem_parsedTags tags (t0, v0)).mpr ⟨ht, hp⟩))
    have hglt : get_latest_tag tags = some (String.mk (replacePre tv.1.data)) := by
      unfold get_latest_tag
      rw [hnil, htv]
      rfl
    have hparse := mem_parsedTags.mp (maxByKeyFirst_mem htv)
    refine ⟨tv.1, tv.2, hglt, hparse.1, hparse.2, ?_⟩
    intro u vu hu hpu
    exact maxByKeyFirst_max htv (u, vu) ((@mem_parsedTags tags (u, vu)).mpr ⟨hu, hpu⟩)

/-- C2 witness: the amended selection rule instantiated on `{v1.0.0, v1.1}`. -/
theorem c2_latest_tag_selection_witness :
    ("v1.0.0" ∈ ["v1.0.0", "v1.1"] ∧
      parse_version "v1.0.0" = some ⟨1, 0, some 0, none⟩) ∧
    ∃ w vw, get_latest_tag ["v1.0.0", "v1.1"] = some w ∧ w ∈ ["v1.0.0", "v1.1"] ∧
      parse_version w = some vw ∧ vw.prerelease = none ∧
      ∀ u vu, u ∈ ["v1.0.0", "v1.1"] → parse_version u = some vu →
        vu.prerelease = none → ¬ keyLt (tagKey vw) (tagKey vu) :=
  ⟨⟨by decide, by decide⟩,
    (c2_latest_tag_selection ["v1.0.0", "v1.1"]).1 "v1.0.0" ⟨1, 0, some 0, none⟩
      (by decide) (by decide) rfl⟩

/-- C3: parsing the string produced by `format_version` returns exactly the
input components, for every valid version (major, minor any naturals; patch
absent or any natural; prerelease absent or a non-empty `[a-zA-Z0-9.-]+`
token), with and without the leading `v`. -/
theorem c3_parse_format_roundtrip (ma mi : Nat) (pa : Option Nat) (pre : Option String)
    (b : Bool) (hpre : ValidPre pre) :
    parse_version (format_version ma mi pa pre b) = some ⟨ma, mi, pa, pre⟩ :=
  parse_format_roundtrip ma mi pa pre b hpre

/-- C3 witness: the round trip at `v1.2.3-rc.1`. -/
theorem c3_parse_format_roundtrip_witness :
    ValidPre (some "rc.1") ∧
    parse_version (format_version 1 2 (some 3) (some "rc.1") true) =
      some ⟨1, 2, some 3, some "rc.1"⟩ :=
  ⟨by decide, c3_parse_format_roundtrip 1 2 (some 3) (some "rc.1") true (by decide)⟩

/-- C4: for every parseable version, `bump_version` produces
`(major+1, 0, 0, none)` for MAJOR, `(major, minor+1, 0, none)` for MINOR and
`(major, minor, (patch ?? 0)+1, none)` for PATCH — in every case with an
explicit patch and no prerelease. -/
theorem c4_bump_version_parts (s : String) (v : Version)
    (h : parse_version s = some v) :
    parse_version (bump_version s VersionPart.MAJOR) =
      some ⟨v.major + 1, 0, some 0, none⟩ ∧
    parse_version (bump_version s VersionPart.MINOR) =
      some ⟨v.major, v.minor + 1, some 0, none⟩ ∧
    parse_version (bump_version s VersionPart.PATCH) =
      some ⟨v.major, v.minor, some (v.patch.getD 0 + 1), none⟩ := by
  have hnone : ValidPre none := by intro p hp; cases hp
  refine ⟨?_, ?_, ?_⟩ <;>
    (unfold bump_version; rw [h]; exact parse_format_roundtrip _ _ _ _ _ hnone)

/-- C4 witness: the three bumps of `1.2.3`. -/
theorem c4_bump_version_parts_witness :
    parse_version "1.2.3" = some ⟨1, 2, some 3, none⟩ ∧
    parse_version (bump_version "1.2.3" VersionPart.MAJOR) = some ⟨2, 0, some 0, none⟩ ∧
    parse_version (bump_version "1.2.3" VersionPart.MINOR) = some ⟨1, 3, some 0, none⟩ ∧
    parse_version (bump_version "1.2.3" VersionPart.PATCH) = some ⟨1, 2, some 4, none⟩ :=
  ⟨by decide,
    (c4_bump_version_parts "1.2.3" ⟨1, 2, some 3, none⟩ (by decide)).1,
    (c4_bump_version_parts "1.2.3" ⟨1, 2, some 3, none⟩ (by decide)).2.1,
    (c4_bump_version_parts "1.2.3" ⟨1, 2, some 3, none⟩ (by decide)).2.2⟩

/-- C5: on every parseable input, `get_next_version_for_tag` returns exactly
the PATCH bump of the same string. -/
theorem c5_next_version_is_patch_bump (s : String) (v : Version)
    (h : parse_version s = some v) :
    get_next_version_for_tag s = some (bump_version s VersionPart.PATCH) := by
  unfold get_next_version_for_tag bump_version
  rw [h]

/-- C5 witness: `v1.2`. -/
theorem c5_next_version_is_patch_bump_witness :
    parse_version "v1.2" = some ⟨1, 2, none, none⟩ ∧
    get_next_version_for_tag "v1.2" = some (bump_version "v1.2" VersionPart.PATCH) :=
  ⟨by decide, c5_next_version_is_patch_bump "v1.2" ⟨1, 2, none, none⟩ (by decide)⟩

/-- C6: `get_version` always returns a non-empty string (given that a
persisted fallback, when present, is non-empty); when a tag resolves it
returns that tag with the leading `v` stripped, and when no tag parses at
all and no fallback is persisted it returns the default `0.0.1-dev0`. -/
theorem c6_get_version_total (tags : List String) (fb : Option String) :
    ((∀ f, fb = some f → f ≠ "") → get_version tags fb ≠ "") ∧
    (∀ t, get_latest_tag tags = some t → get_version tags fb = stripV t) ∧
    ((∀ t, t ∈ tags → parse_version t = none) →
      get_version tags none = "0.0.1-dev0") := by
  refine ⟨?_, ?_, ?_⟩
  · intro hfb
    unfold get_version
    cases hg : get_latest_tag tags with
    | some t =>
      simp only
      rw [if_neg (get_latest_tag_ne_empty hg)]
      exact stripV_ne_empty (get_latest_tag_digit hg)
    | none =>
      cases fb with
      | none => decide
      | some f => exact hfb f rfl
  · intro t hg
    unfold get_version
    rw [hg]
    simp only
    rw [if_neg (get_latest_tag_ne_empty hg)]
  · intro hnone
    have hpt : parsedTags tags = [] := by
      apply List.filterMap_eq_nil_iff.mpr
      intro t ht
      rw [hnone t (List.mem_filter.mp ht).1]
      rfl
    have hg : get_latest_tag tags = none := by
      unfold get_latest_tag
      rw [hpt]
      rfl
    unfold get_version
    rw [hg]
    rfl

/-- C6 witness: the three parts at concrete tag sets. -/
theorem c6_get_version_total_witness :
    get_version ["v1.2.3"] none ≠ "" ∧
    get_version ["v1.2.3"] none = stripV "v1.2.3" ∧
    get_version ["nope"] none = "0.0.1-dev0" :=
  ⟨(c6_get_version_total ["v1.2.3"] none).1 (fun f h => nomatch h),
    (c6_get_version_total ["v1.2.3"] none).2.1 "v1.2.3" (by decide),
    (c6_get_version_total ["nope"] none).2.2 (by decide)⟩

/-- C7 (counterexample): an explicitly supplied empty-string override is
"present" but falsy in Python, so `determine_version` ignores it, consults
the tags, creates a tag and returns `("1.2.1", true)` instead of the claimed
`("", false)` with no tag creation. -/
theorem c7_counterexample_empty_override_ignored :
    determine_version (some "") true ["v1.2"] false "dev" =
      some ⟨"1.2.1", true, ["v1.2.1"]⟩ ∧
    determine_version (some "") true ["v1.2"] false "dev" ≠
      some ⟨"", false, []⟩ := by
  decide

/-- C7 (amended): for every tag state, every `forceDev` value and every
tagged-commit state, a NON-EMPTY override is returned exactly as
`(override, false)`, with no tag consulted and no tag created. -/
theorem c7_nonempty_override_wins (s dev : String) (tags : List String)
    (onTagged useDev : Bool) (h : s ≠ "") :
    determine_version (some s) onTagged tags useDev dev = some ⟨s, false, []⟩ := by
  have hov : overridePresent (some s) = true := by
    simp [overridePresent, h]
  unfold determine_version
  rw [hov]
  rfl

/-- C7 witness: a non-empty override on a tagged commit. -/
theorem c7_nonempty_override_wins_witness :
    ("2.0.0" : String) ≠ "" ∧
    determine_version (some "2.0.0") true ["v9.9"] false "d" =
      some ⟨"2.0.0", false, []⟩ :=
  ⟨by decide, c7_nonempty_override_wins "2.0.0" "d" ["v9.9"] true false (by decide)⟩

/-- C8: on a tagged commit with no override and `forceDev` false, when no
repository tag parses (latest-tag resolution yields none), the code dies
with an uncaught exception (`None.startswith`), modelled as `none` — it does
not return a version string or fall back to a dev/default version. -/
theorem c8_unresolvable_tagged_commit_raises (tags : List String) (dev : String)
    (h : get_latest_tag tags = none) :
    determine_version none true tags false dev = none := by
  simp [determine_version, overridePresent, h]

/-- C8 witness: a repository whose only tag is unparsable. -/
theorem c8_unresolvable_tagged_commit_raises_witness :
    get_latest_tag ["not-a-version"] = none ∧
    determine_version none true ["not-a-version"] false "x" = none :=
  ⟨by decide, c8_unresolvable_tagged_commit_raises ["not-a-version"] "x" (by decide)⟩

/-- C9: `bump_version` is the identity on every string that does not parse
(including the empty string), for every part. -/
theorem c9_bump_identity_on_unparseable (s : String) (p : VersionPart)
    (h : parse_version s = none) :
    bump_version s p = s := by
  unfold bump_version
  rw [h]

/-- C9 witness: `"invalid"`. -/
theorem c9_bump_identity_on_unparseable_witness :
    parse_version "invalid" = none ∧
    bump_version "invalid" VersionPart.MAJOR = "invalid" :=
  ⟨by decide, c9_bump_identity_on_unparseable "invalid" VersionPart.MAJOR (by decide)⟩

/-- C10: in the prerelease-only fallback every occurrence of the literal
substring `-pre` is removed from the winning tag — also when `-pre` is only
a prefix of a longer prerelease token (`v2.0-preview` → `v2.0view`) and when
the prerelease is not exactly `pre` (`v1.0-alpha-pre-pre.2` → `v1.0-alpha.2`,
both occurrences removed); the plain `v1.2-pre` → `v1.2` case included. -/
theorem c10_replace_pre_all_occurrences :
    get_latest_tag ["v2.0-preview"] = some "v2.0view" ∧
    get_latest_tag ["v1.0-alpha-pre-pre.2"] = some "v1.0-alpha.2" ∧
    get_latest_tag ["v1.2-pre"] = some "v1.2" := by
  decide

end LibVersion
